import Mathlib

/-!
Shallow embedding of `src/concat_sources.py`, a command-line utility that
concatenates the source files found under a root directory into a single
Markdown document.

Modelling conventions:
* Python `str` values are modelled as `List Char` (`Str` below).
* File contents on disk are byte lists (`List Nat`, each element < 256 in
  practice); decoding mirrors `bytes.decode("utf-8")` with strict and
  `errors="replace"` modes.
* A directory tree is the inductive `FS`; `glob("*")` and `rglob("*")`
  are modelled by `FS.listTop` and `FS.listAll`.  The operating system's
  directory-iteration order is unspecified, so theorems about run-to-run
  determinism quantify over permutations of the enumerated entry list.
* `list.sort(key=...)` is Python's stable sort; it is modelled by the
  stable insertion sort `sortByKey`.
* Writing the output file is modelled by returning the written text; a run
  that never opens the output file returns `none` for it.
-/

set_option maxHeartbeats 1000000

/-- Python strings are modelled as lists of characters. -/
abbrev Str := List Char

/-- Model of Python `str.lower` on one character, restricted to the Basic
Latin letters (the only case mapping exercised by ASCII paths and
extensions; Python's `lower` agrees with this on ASCII). -/
def pyLowerChar (c : Char) : Char :=
  if 65 ≤ c.toNat ∧ c.toNat ≤ 90 then Char.ofNat (c.toNat + 32) else c

/-- Model of Python `str.lower` on a string. -/
def pyLowerStr (s : Str) : Str := s.map pyLowerChar

/-- Python's `<=` on strings: lexicographic comparison by code point. -/
def lexLe : Str → Str → Bool
  | [], _ => true
  | _ :: _, [] => false
  | a :: as, b :: bs => if a < b then true else if b < a then false else lexLe as bs

/-- Index of the last occurrence of `'.'` in a string (Python
`name.rfind(".")` restricted to the found case). -/
def rfindDot : Str → Option Nat
  | [] => none
  | c :: cs =>
    match rfindDot cs with
    | some i => some (i + 1)
    | none => if c = '.' then some 0 else none

/-- Python `pathlib.PurePath.suffix` computed from the final path
component `name`: the substring from the last dot, provided that dot is
neither the first nor the last character; otherwise the empty string. -/
def pySuffix (name : Str) : Str :=
  match rfindDot name with
  | none => []
  | some i => if 0 < i ∧ i + 1 < name.length then name.drop i else []

/-- A directory tree: a regular file with its raw bytes, or a directory
with named children. -/
inductive FS where
  | file (bytes : List Nat) : FS
  | dir (children : List (Str × FS)) : FS

/-- Python `Path.is_file()` for a node of the modelled tree. -/
def FS.is_file : FS → Bool
  | .file _ => true
  | .dir _ => false

/-- Python `Path.is_dir()` for a node of the modelled tree. -/
def FS.is_dir : FS → Bool
  | .file _ => false
  | .dir _ => true

/-- Raw bytes of a file node (directories have no bytes). -/
def FS.bytes : FS → List Nat
  | .file b => b
  | .dir _ => []

/-- An enumerated entry: the path components relative to the root paired
with the node found there. -/
abbrev Entry := List Str × FS

/-- Model of `folder.glob("*")`: the direct children of the root, files
and directories alike, as one-component relative paths. -/
def FS.listTop : FS → List Entry
  | .file _ => []
  | .dir cs => cs.map (fun c => ([c.1], c.2))

mutual

/-- Model of `folder.rglob("*")`: every descendant of the root (files and
directories at all depths) with its relative path components. -/
def FS.listAll : FS → List Entry
  | .file _ => []
  | .dir cs => listAllChildren cs

/-- Helper for `FS.listAll`: enumerate a list of named children. -/
def listAllChildren : List (Str × FS) → List Entry
  | [] => []
  | (n, t) :: rest =>
    ([n], t) :: ((FS.listAll t).map (fun e => (n :: e.1, e.2)) ++ listAllChildren rest)

end

/-- Is `b` a UTF-8 continuation byte (`0x80 ≤ b ≤ 0xBF`)? -/
def isCont (b : Nat) : Bool := decide (0x80 ≤ b) && decide (b ≤ 0xBF)

/-- Allowed second byte after a three-byte lead `b` (excludes overlong
encodings after `0xE0` and surrogates after `0xED`). -/
def cont3 (b b2 : Nat) : Bool :=
  if b = 0xE0 then decide (0xA0 ≤ b2) && decide (b2 ≤ 0xBF)
  else if b = 0xED then decide (0x80 ≤ b2) && decide (b2 ≤ 0x9F)
  else isCont b2

/-- Allowed second byte after a four-byte lead `b` (excludes overlong
encodings after `0xF0` and values beyond U+10FFFF after `0xF4`). -/
def cont4 (b b2 : Nat) : Bool :=
  if b = 0xF0 then decide (0x90 ≤ b2) && decide (b2 ≤ 0xBF)
  else if b = 0xF4 then decide (0x80 ≤ b2) && decide (b2 ≤ 0x8F)
  else isCont b2

/-- Strict UTF-8 decoding, Python `bytes.decode("utf-8")`: `none` models
the `UnicodeDecodeError` raised on ill-formed input. -/
def utf8Decode : List Nat → Option (List Char)
  | [] => some []
  | b :: rest =>
    if b < 0x80 then (utf8Decode rest).map (fun cs => Char.ofNat b :: cs)
    else if 0xC2 ≤ b ∧ b ≤ 0xDF then
      match rest with
      | b2 :: r =>
        if isCont b2 then
          (utf8Decode r).map (fun cs => Char.ofNat ((b - 0xC0) * 64 + (b2 - 0x80)) :: cs)
        else none
      | [] => none
    else if 0xE0 ≤ b ∧ b ≤ 0xEF then
      match rest with
      | b2 :: b3 :: r =>
        if cont3 b b2 && isCont b3 then
          (utf8Decode r).map
            (fun cs => Char.ofNat (((b - 0xE0) * 64 + (b2 - 0x80)) * 64 + (b3 - 0x80)) :: cs)
        else none
      | _ => none
    else if 0xF0 ≤ b ∧ b ≤ 0xF4 then
      match rest with
      | b2 :: b3 :: b4 :: r =>
        if cont4 b b2 && isCont b3 && isCont b4 then
          (utf8Decode r).map
            (fun cs =>
              Char.ofNat ((((b - 0xF0) * 64 + (b2 - 0x80)) * 64 + (b3 - 0x80)) * 64 + (b4 - 0x80)) :: cs)
        else none
      | _ => none
    else none

/-- The Unicode replacement character U+FFFD. -/
def replacementChar : Char := Char.ofNat 0xFFFD

/-- Lossy UTF-8 decoding, Python `bytes.decode("utf-8", errors="replace")`:
a well-formed sequence decodes as usual; otherwise one replacement
character is emitted and one byte is skipped.  (CPython may merge a
truncated multi-byte sequence into a single replacement character; no
claim depends on the exact replacement count.) -/
def utf8DecodeReplace : List Nat → List Char
  | [] => []
  | b :: rest =>
    if b < 0x80 then Char.ofNat b :: utf8DecodeReplace rest
    else if 0xC2 ≤ b ∧ b ≤ 0xDF then
      match rest with
      | b2 :: r =>
        if isCont b2 then Char.ofNat ((b - 0xC0) * 64 + (b2 - 0x80)) :: utf8DecodeReplace r
        else replacementChar :: utf8DecodeReplace (b2 :: r)
      | [] => [replacementChar]
    else if 0xE0 ≤ b ∧ b ≤ 0xEF then
      match rest with
      | b2 :: b3 :: r =>
        if cont3 b b2 && isCont b3 then
          Char.ofNat (((b - 0xE0) * 64 + (b2 - 0x80)) * 64 + (b3 - 0x80)) :: utf8DecodeReplace r
        else replacementChar :: utf8DecodeReplace (b2 :: b3 :: r)
      | [b2] => replacementChar :: utf8DecodeReplace [b2]
      | [] => [replacementChar]
    else if 0xF0 ≤ b ∧ b ≤ 0xF4 then
      match rest with
      | b2 :: b3 :: b4 :: r =>
        if cont4 b b2 && isCont b3 && isCont b4 then
          Char.ofNat ((((b - 0xF0) * 64 + (b2 - 0x80)) * 64 + (b3 - 0x80)) * 64 + (b4 - 0x80)) ::
            utf8DecodeReplace r
        else replacementChar :: utf8DecodeReplace (b2 :: b3 :: b4 :: r)
      | [b2, b3] => replacementChar :: utf8DecodeReplace [b2, b3]
      | [b2] => replacementChar :: utf8DecodeReplace [b2]
      | [] => [replacementChar]
    else replacementChar :: utf8DecodeReplace rest
termination_by l => l.length
decreasing_by all_goals simp_arith [List.length]

/-- The `try/except UnicodeDecodeError` block of `make_big_file`: strict
decoding first, falling back to lossy replacement on failure. -/
def readFileText (bytes : List Nat) : Str :=
  match utf8Decode bytes with
  | some t => t
  | none => utf8DecodeReplace bytes

/-- Python `text.rstrip("\n")`: remove every trailing newline. -/
def rstripNl (s : Str) : Str := (s.reverse.dropWhile (fun c => c == '\n')).reverse

/-- The final component of a relative path (Python `path.name`). -/
def pathName (p : List Str) : Str := p.getLast?.getD []

/-- Relative path rendered as a string, components joined by `/`
(Python `str(path.relative_to(base_folder))`). -/
def relStr (p : List Str) : Str := List.intercalate ['/'] p

/-- Full path rendered as a string: the resolved root string followed by
the relative components, joined by `/` (Python `str(p)` for an entry `p`
produced by globbing `folder`). -/
def strOfPath (rootStr : Str) (p : List Str) : Str :=
  rootStr ++ '/' :: List.intercalate ['/'] p

/-- Insert `x` into a sorted list, before the first element whose key is
not smaller — the insertion step of a stable sort. -/
def orderedInsertKey {α : Type} (key : α → Str) (x : α) : List α → List α
  | [] => [x]
  | y :: ys => if lexLe (key x) (key y) then x :: y :: ys else y :: orderedInsertKey key x ys

/-- Stable insertion sort by a string key, modelling Python's stable
`list.sort(key=...)`. -/
def sortByKey {α : Type} (key : α → Str) : List α → List α
  | [] => []
  | x :: xs => orderedInsertKey key x (sortByKey key xs)

/-- Default extension allow-list `DEFAULT_EXTS` from the source. -/
def DEFAULT_EXTS : List Str :=
  [".c".toList, ".h".toList, ".cpp".toList, ".hpp".toList,
   ".cc".toList, ".hh".toList, ".py".toList, ".js".toList,
   ".ts".toList, ".java".toList, ".cs".toList,
   ".go".toList, ".rs".toList, ".php".toList,
   ".html".toList, ".css".toList]

/-- `is_source_file(path, exts)` from the source: regular files only;
`exts is None` accepts everything, otherwise membership of
`path.suffix.lower()` in `exts`. -/
def is_source_file (e : Entry) (exts : Option (List Str)) : Bool :=
  if ¬ e.2.is_file then false
  else
    match exts with
    | none => true
    | some s => s.contains (pyLowerStr (pySuffix (pathName e.1)))

/-- The sort step of `collect_files`:
`files.sort(key=lambda p: str(p).lower())`. -/
def sortFiles (rootStr : Str) (files : List Entry) : List Entry :=
  sortByKey (fun e => pyLowerStr (strOfPath rootStr e.1)) files

/-- Filter-and-sort applied to one concrete enumeration order `it` of the
glob iterator; `collect_files` is this composed with a tree listing. -/
def collectFrom (rootStr : Str) (it : List Entry) (exts : Option (List Str)) : List Entry :=
  sortFiles rootStr (it.filter (fun e => is_source_file e exts))

/-- `collect_files(folder, recursive, exts)` from the source, with the
tree listed in its structural order. -/
def collect_files (folder : FS) (rootStr : Str) (recursive : Bool)
    (exts : Option (List Str)) : List Entry :=
  collectFrom rootStr (if recursive then folder.listAll else folder.listTop) exts

/-- The body of the `for` loop of `make_big_file`: the four `out.write`
calls for one file, appended to the output written so far. -/
def writeEntry (out : Str) (e : Entry) : Str :=
  let relName := relStr e.1
  let out1 := out ++ ("## ".toList ++ relName ++ ['\n'])
  let out2 := out1 ++ ("```".toList ++ ['\n'])
  let text := readFileText e.2.bytes
  let out3 := out2 ++ (rstripNl text ++ ['\n'])
  out3 ++ ("```".toList ++ ['\n', '\n'])

/-- `make_big_file(files, ...)` from the source: the text written to the
output file by the loop of `out.write` calls. -/
def make_big_file (files : List Entry) : Str :=
  files.foldl writeEntry []

/-- Spec-shaped rendering of one entry, following the spec's words:
heading line with the relative path, opening fence line, the file's text
with trailing newlines trimmed to exactly one, closing fence line, and a
separating blank line. -/
def renderEntrySpec (e : Entry) : Str :=
  "## ".toList ++ relStr e.1 ++ ['\n'] ++
    "```".toList ++ ['\n'] ++
    (rstripNl (readFileText e.2.bytes) ++ ['\n']) ++
    "```".toList ++ ['\n', '\n']

/-- Spec-shaped rendering of the whole document: the entry renderings
concatenated in order. -/
def renderDocSpec (files : List Entry) : Str := (files.map renderEntrySpec).flatten

/-- The string ends with exactly one newline: its last character is a
newline and the character before it (if any) is not. -/
def endsOneNl (s : Str) : Prop :=
  s.getLast? = some '\n' ∧ s.dropLast.getLast? ≠ some '\n'

/-- Command-line arguments relevant to the modelled behaviour.  `ext` is
the list of `--ext` values (`[]` models argparse's `None` default). -/
structure Args where
  recursive : Bool
  all : Bool
  ext : List Str
deriving DecidableEq

/-- The `--ext` normalization of `main`:
`{e if e.startswith(".") else "." + e for e in args.ext}` (the Python set
is modelled as a list; only membership in it is ever used). -/
def normalizeExts (ext : List Str) : List Str :=
  ext.map (fun e => if e.head? = some '.' then e else '.' :: e)

/-- The extension-filter selection of `main`: `--all` gives the accept-all
sentinel, a non-empty `--ext` list gives the normalized set, otherwise the
default allow-list. -/
def extsOf (args : Args) : Option (List Str) :=
  if args.all then none
  else if ¬ args.ext.isEmpty then some (normalizeExts args.ext)
  else some DEFAULT_EXTS

/-- Message printed when the root is missing or not a directory. -/
def dirErrMsg (rootStr : Str) : Str :=
  "Error: ".toList ++ rootStr ++ " is not a directory.".toList

/-- Message printed when no files match the filter. -/
def noMatchMsg : Str := "No matching source files found.".toList

/-- Observable outcome of one run: the exit code, the message printed to
stderr (if any), and the text written to the output file (`none` when the
output file is never opened). -/
structure RunResult where
  exit : Nat
  errMsg : Option Str
  output : Option Str
deriving DecidableEq

/-- Python `folder.is_dir()` where `root = none` models a path that does
not exist at all. -/
def rootDir? (root : Option FS) : Bool :=
  match root with
  | some t => t.is_dir
  | none => false

/-- The root node once it is known to be a directory. -/
def theDir (root : Option FS) : FS := root.getD (FS.dir [])

/-- `main` from the source: directory check, extension selection, file
collection, empty-result check, then rendering to the output file.  (The
name is qualified because a bare top-level `main` is reserved in Lean.) -/
def Concat.main (root : Option FS) (rootStr : Str) (args : Args) : RunResult :=
  if rootDir? root = false then
    ⟨1, some (dirErrMsg rootStr), none⟩
  else
    let files := collect_files (theDir root) rootStr args.recursive (extsOf args)
    if files.isEmpty then
      ⟨1, some noMatchMsg, none⟩
    else
      ⟨0, none, some (make_big_file files)⟩

/-- The output document produced by one run whose glob iterator yielded
the entries `it` in that order: `collect_files`' filter-and-sort followed
by `make_big_file`.  Quantifying over permutations of `it` models the
operating system's unspecified directory-iteration order. -/
def runOutput (rootStr : Str) (it : List Entry) (exts : Option (List Str)) : Str :=
  make_big_file (collectFrom rootStr it exts)

/-! ### Lexicographic comparison -/

theorem lexLe_total : ∀ x y : Str, lexLe x y = true ∨ lexLe y x = true
  | [], _ => Or.inl rfl
  | _ :: _, [] => Or.inr rfl
  | a :: as, b :: bs => by
    rcases lt_trichotomy a b with h | h | h
    · exact Or.inl (by simp [lexLe, h])
    · subst h
      rcases lexLe_total as bs with ih | ih
      · exact Or.inl (by simp [lexLe, lt_irrefl, ih])
      · exact Or.inr (by simp [lexLe, lt_irrefl, ih])
    · exact Or.inr (by simp [lexLe, h])

theorem lexLe_antisymm : ∀ {x y : Str}, lexLe x y = true → lexLe y x = true → x = y
  | [], [], _, _ => rfl
  | [], _ :: _, _, h2 => by simp [lexLe] at h2
  | _ :: _, [], h1, _ => by simp [lexLe] at h1
  | a :: as, b :: bs, h1, h2 => by
    rcases lt_trichotomy a b with h | h | h
    · simp [lexLe, h, asymm h] at h2
    · subst h
      simp only [lexLe, lt_irrefl, if_false] at h1 h2
      exact congrArg (a :: ·) (lexLe_antisymm h1 h2)
    · simp [lexLe, h, asymm h] at h1

theorem lexLe_trans : ∀ {x y z : Str}, lexLe x y = true → lexLe y z = true → lexLe x z = true
  | [], _, _, _, _ => rfl
  | _ :: _, [], _, h1, _ => by simp [lexLe] at h1
  | _ :: _, _ :: _, [], _, h2 => by simp [lexLe] at h2
  | a :: as, b :: bs, c :: cs, h1, h2 => by
    rcases lt_trichotomy a b with hab | hab | hab
    · rcases lt_trichotomy b c with hbc | hbc | hbc
      · exact (by simp [lexLe, lt_trans hab hbc] : lexLe (a :: as) (c :: cs) = true)
      · subst hbc; simp [lexLe, hab]
      · simp [lexLe, hbc, asymm hbc] at h2
    · subst hab
      simp only [lexLe, lt_irrefl, if_false] at h1
      rcases lt_trichotomy a c with hac | hac | hac
      · simp [lexLe, hac]
      · subst hac
        simp only [lexLe, lt_irrefl, if_false] at h2 ⊢
        exact lexLe_trans h1 h2
      · simp [lexLe, hac, asymm hac] at h2
    · simp [lexLe, hab, asymm hab] at h1

/-! ### The stable sort -/

theorem orderedInsertKey_perm {α : Type} (key : α → Str) (x : α) :
    ∀ l : List α, (orderedInsertKey key x l).Perm (x :: l)
  | [] => List.Perm.refl _
  | y :: ys => by
    by_cases h : lexLe (key x) (key y) = true
    · simp [orderedInsertKey, h]
    · simp only [orderedInsertKey, h, if_false]
      exact ((orderedInsertKey_perm key x ys).cons y).trans (List.Perm.swap x y ys)

theorem sortByKey_perm {α : Type} (key : α → Str) :
    ∀ l : List α, (sortByKey key l).Perm l
  | [] => List.Perm.refl _
  | x :: xs =>
    (orderedInsertKey_perm key x (sortByKey key xs)).trans ((sortByKey_perm key xs).cons x)

theorem mem_sortByKey {α : Type} {key : α → Str} {a : α} {l : List α} :
    a ∈ sortByKey key l ↔ a ∈ l :=
  (sortByKey_perm key l).mem_iff

theorem pairwise_orderedInsertKey {α : Type} (key : α → Str) (x : α) :
    ∀ {l : List α}, l.Pairwise (fun a b => lexLe (key a) (key b) = true) →
      (orderedInsertKey key x l).Pairwise (fun a b => lexLe (key a) (key b) = true) := by
  intro l
  induction l with
  | nil => intro _; exact List.pairwise_singleton _ x
  | cons y ys ih =>
    intro hp
    rcases List.pairwise_cons.mp hp with ⟨hy, hys⟩
    by_cases h : lexLe (key x) (key y) = true
    · simp only [orderedInsertKey, h, if_true]
      refine List.pairwise_cons.mpr ⟨?_, hp⟩
      intro b hb
      rcases List.mem_cons.mp hb with rfl | hb
      · exact h
      · exact lexLe_trans h (hy b hb)
    · simp only [orderedInsertKey, h, if_false]
      refine List.pairwise_cons.mpr ⟨?_, ih hys⟩
      intro b hb
      rcases List.mem_cons.mp ((orderedInsertKey_perm key x ys).mem_iff.mp hb) with rfl | hb
      · rcases lexLe_total (key b) (key y) with hby | hyb
        · exact absurd hby h
        · exact hyb
      · exact hy b hb

theorem sortByKey_pairwise {α : Type} (key : α → Str) :
    ∀ l : List α, (sortByKey key l).Pairwise (fun a b => lexLe (key a) (key b) = true)
  | [] => List.Pairwise.nil
  | x :: xs => pairwise_orderedInsertKey key x (sortByKey_pairwise key xs)

/-- Two lists that are permutations of one another and both pairwise
ordered by an asymmetric relation are equal. -/
theorem perm_pairwise_asymm_eq {α : Type} {R : α → α → Prop}
    (hasym : ∀ a b, R a b → R b a → False) :
    ∀ {l1 l2 : List α}, l1.Perm l2 → l1.Pairwise R → l2.Pairwise R → l1 = l2 := by
  intro l1
  induction l1 with
  | nil => intro l2 hperm _ _; exact (hperm.nil_eq).symm ▸ rfl
  | cons x xs ih =>
    intro l2 hperm hp1 hp2
    cases l2 with
    | nil => exact absurd hperm.symm.nil_eq (by simp)
    | cons y ys =>
      by_cases hxy : x = y
      · subst hxy
        exact congrArg (x :: ·)
          (ih hperm.cons_inv (List.pairwise_cons.mp hp1).2 (List.pairwise_cons.mp hp2).2)
      · have hx2 : x ∈ y :: ys := hperm.mem_iff.mp (List.mem_cons_self x xs)
        have hy1 : y ∈ x :: xs := hperm.symm.mem_iff.mp (List.mem_cons_self y ys)
        have hxys : x ∈ ys := by
          rcases List.mem_cons.mp hx2 with h | h
          · exact absurd h hxy
          · exact h
        have hyxs : y ∈ xs := by
          rcases List.mem_cons.mp hy1 with h | h
          · exact absurd h.symm hxy
          · exact h
        exact absurd ((List.pairwise_cons.mp hp1).1 y hyxs)
          (fun h => hasym x y h ((List.pairwise_cons.mp hp2).1 x hxys))

/-! ### Trailing-newline trimming -/

theorem dropWhile_head?_false {α : Type} {p : α → Bool} :
    ∀ {l : List α} {a : α}, (l.dropWhile p).head? = some a → p a = false := by
  intro l
  induction l with
  | nil => intro a h; simp [List.dropWhile] at h
  | cons c cs ih =>
    intro a h
    by_cases hc : p c = true
    · exact ih (by simpa [List.dropWhile, hc] using h)
    · have : c = a := by simpa [List.dropWhile, hc] using h
      subst this
      exact Bool.eq_false_iff.mpr hc

theorem rstripNl_getLast? (s : Str) : (rstripNl s).getLast? ≠ some '\n' := by
  intro h
  rw [rstripNl, List.getLast?_reverse] at h
  have := dropWhile_head?_false h
  simp at this

theorem rstripNl_eq_self {s : Str} (h : s.getLast? ≠ some '\n') : rstripNl s = s := by
  rw [rstripNl]
  cases hrev : s.reverse with
  | nil =>
    have : s = [] := by simpa using congrArg List.reverse hrev
    simp [this]
  | cons c cs =>
    have hc : c ≠ '\n' := by
      intro hceq
      apply h
      rw [← List.head?_reverse, hrev, hceq]
      rfl
    rw [List.dropWhile_cons_of_neg (by simpa using hc), ← hrev, List.reverse_reverse]

theorem endsOneNl_concat {t : Str} (h : t.getLast? ≠ some '\n') : endsOneNl (t ++ ['\n']) := by
  refine ⟨List.getLast?_concat t, ?_⟩
  rw [List.dropLast_concat]
  exact h

/-! ### Lowercasing -/

theorem char_toNat_ofNat {n : Nat} (h : n.isValidChar) : (Char.ofNat n).toNat = n := by
  simp [Char.ofNat, dif_pos h, Char.ofNatAux, Char.toNat, UInt32.toNat]

theorem pyLowerChar_eq_dot {c : Char} (h : pyLowerChar c = '.') : c = '.' := by
  by_cases hc : 65 ≤ c.toNat ∧ c.toNat ≤ 90
  · exfalso
    rw [pyLowerChar, if_pos hc] at h
    have hval : (Char.ofNat (c.toNat + 32)).toNat = c.toNat + 32 :=
      char_toNat_ofNat (Or.inl (by omega))
    rw [h] at hval
    have hdot : ('.' : Char).toNat = 46 := by decide
    omega
  · rwa [pyLowerChar, if_neg hc] at h

theorem pyLowerChar_dot : pyLowerChar '.' = '.' := by decide

/-! ### Suffix computation -/

theorem rfindDot_none : ∀ {l : Str}, rfindDot l = none → '.' ∉ l := by
  intro l
  induction l with
  | nil => intro _; simp
  | cons c cs ih =>
    intro h
    cases hcs : rfindDot cs with
    | some i => simp [rfindDot, hcs] at h
    | none =>
      by_cases hc : c = '.'
      · simp [rfindDot, hcs, hc] at h
      · simp only [List.mem_cons, not_or]
        exact ⟨fun he => hc he.symm, ih hcs⟩

theorem rfindDot_some :
    ∀ {l : Str} {i : Nat}, rfindDot l = some i →
      ∃ pre post, l = pre ++ '.' :: post ∧ pre.length = i ∧ '.' ∉ post := by
  intro l
  induction l with
  | nil => intro i h; simp [rfindDot] at h
  | cons c cs ih =>
    intro i h
    cases hcs : rfindDot cs with
    | some j =>
      have hi : i = j + 1 := by simp [rfindDot, hcs] at h; omega
      rcases ih hcs with ⟨pre, post, hdec, hlen, hpost⟩
      exact ⟨c :: pre, post, by simp [hdec], by simp [hlen, hi], hpost⟩
    | none =>
      by_cases hc : c = '.'
      · have hi : i = 0 := by simp [rfindDot, hcs, hc] at h; omega
        exact ⟨[], cs, by simp [hc], by simp [hi], rfindDot_none hcs⟩
      · simp [rfindDot, hcs, hc] at h

theorem pySuffix_shape (name : Str) :
    pySuffix name = [] ∨ ∃ post, pySuffix name = '.' :: post ∧ '.' ∉ post := by
  cases hfind : rfindDot name with
  | none => exact Or.inl (by simp [pySuffix, hfind])
  | some i =>
    by_cases hcond : 0 < i ∧ i + 1 < name.length
    · rcases rfindDot_some hfind with ⟨pre, post, hdec, hlen, hpost⟩
      refine Or.inr ⟨post, ?_, hpost⟩
      simp only [pySuffix, hfind, if_pos hcond]
      rw [hdec, ← hlen, List.drop_left]
    · exact Or.inl (by simp only [pySuffix, hfind, if_neg hcond])

theorem pyLower_pySuffix_ne_targz (name : Str) :
    pyLowerStr (pySuffix name) ≠ ".tar.gz".toList := by
  rcases pySuffix_shape name with h | ⟨post, h, hpost⟩ <;> rw [h]
  · intro he
    simp [pyLowerStr] at he
  · intro he
    simp only [pyLowerStr, List.map_cons, pyLowerChar_dot] at he
    have htail : post.map pyLowerChar = "tar.gz".toList := by
      have := List.tail_eq_of_cons_eq he
      simpa using this
    have hdotmem : '.' ∈ post.map pyLowerChar := by
      rw [htail]; decide
    rcases List.mem_map.mp hdotmem with ⟨c, hcmem, hceq⟩
    exact hpost (pyLowerChar_eq_dot hceq ▸ hcmem)

/-! ### Rendering -/

theorem writeEntry_eq (out : Str) (e : Entry) :
    writeEntry out e = out ++ renderEntrySpec e := by
  simp [writeEntry, renderEntrySpec, List.append_assoc]

theorem foldl_writeEntry (files : List Entry) :
    ∀ acc : Str, files.foldl writeEntry acc = acc ++ renderDocSpec files := by
  induction files with
  | nil => intro acc; simp [renderDocSpec]
  | cons f fs ih =>
    intro acc
    rw [List.foldl_cons, ih, writeEntry_eq]
    simp [renderDocSpec, List.append_assoc]

theorem make_big_file_eq_spec (files : List Entry) :
    make_big_file files = renderDocSpec files := by
  rw [make_big_file, foldl_writeEntry]
  rfl

/-- C1: for every non-empty (sorted) file list, the document written by
`make_big_file` is, entry by entry in list order, the heading line
`## <relative path>`, a line holding the opening fence, the file's text
with trailing newlines trimmed to exactly one, a line holding the closing
fence, and a separating blank line — i.e. the concatenation of the
spec-shaped entry renderings, where every entry body ends with exactly
one newline. -/
theorem spec_C1 (files : List Entry) (_hne : files ≠ []) :
    make_big_file files = renderDocSpec files ∧
      ∀ e ∈ files, endsOneNl (rstripNl (readFileText e.2.bytes) ++ ['\n']) :=
  ⟨make_big_file_eq_spec files, fun _ _ => endsOneNl_concat (rstripNl_getLast? _)⟩

/-- Witness for C1 at the one-file list of the spec's §8 example
(`a.py` containing `x=1\n`). -/
theorem spec_C1_witness :
    ([(["a.py".toList], FS.file [120, 61, 49, 10])] : List Entry) ≠ [] ∧
      (make_big_file [(["a.py".toList], FS.file [120, 61, 49, 10])] =
          renderDocSpec [(["a.py".toList], FS.file [120, 61, 49, 10])] ∧
        ∀ e ∈ ([(["a.py".toList], FS.file [120, 61, 49, 10])] : List Entry),
          endsOneNl (rstripNl (readFileText e.2.bytes) ++ ['\n'])) :=
  ⟨by simp, spec_C1 [(["a.py".toList], FS.file [120, 61, 49, 10])] (by simp)⟩

/-- C10: for a file whose decoded text does not end with a newline at
all, the rendered entry appends exactly one newline to the unmodified
text, so the body between the fences still ends with exactly one
newline. -/
theorem spec_C10 (out : Str) (p : List Str) (b : List Nat)
    (h : (readFileText b).getLast? ≠ some '\n') :
    writeEntry out (p, FS.file b) =
      out ++ ("## ".toList ++ relStr p ++ ['\n'] ++ "```".toList ++ ['\n'] ++
        (readFileText b ++ ['\n']) ++ "```".toList ++ ['\n', '\n']) ∧
      endsOneNl (readFileText b ++ ['\n']) := by
  constructor
  · rw [writeEntry_eq]
    simp only [renderEntrySpec, FS.bytes, rstripNl_eq_self h]
  · exact endsOneNl_concat h

/-- Witness for C10 at the file content `x=1` (no trailing newline). -/
theorem spec_C10_witness :
    (readFileText [120, 61, 49]).getLast? ≠ some '\n' ∧
      (writeEntry [] (["a.py".toList], FS.file [120, 61, 49]) =
        [] ++ ("## ".toList ++ relStr ["a.py".toList] ++ ['\n'] ++ "```".toList ++ ['\n'] ++
          (readFileText [120, 61, 49] ++ ['\n']) ++ "```".toList ++ ['\n', '\n']) ∧
        endsOneNl (readFileText [120, 61, 49] ++ ['\n'])) :=
  ⟨by decide, spec_C10 [] ["a.py".toList] [120, 61, 49] (by decide)⟩

/-- C8: when strict UTF-8 decoding of a file's bytes fails, the rendering
loop falls back to the lossy replacement decoding and renders the entry
from it; the failure changes nothing else about the run (the model is a
total function with no error outcome for this case). -/
theorem spec_C8 (b : List Nat) (h : utf8Decode b = none) :
    readFileText b = utf8DecodeReplace b ∧
      ∀ (out : Str) (p : List Str),
        writeEntry out (p, FS.file b) =
          out ++ ("## ".toList ++ relStr p ++ ['\n'] ++ "```".toList ++ ['\n'] ++
            (rstripNl (utf8DecodeReplace b) ++ ['\n']) ++ "```".toList ++ ['\n', '\n']) := by
  have hread : readFileText b = utf8DecodeReplace b := by
    simp only [readFileText, h]
  refine ⟨hread, fun out p => ?_⟩
  rw [writeEntry_eq]
  simp only [renderEntrySpec, FS.bytes, hread]

/-- Witness for C8 at the single undecodable byte `0xFF`. -/
theorem spec_C8_witness :
    utf8Decode [255] = none ∧
      (readFileText [255] = utf8DecodeReplace [255] ∧
        ∀ (out : Str) (p : List Str),
          writeEntry out (p, FS.file [255]) =
            out ++ ("## ".toList ++ relStr p ++ ['\n'] ++ "```".toList ++ ['\n'] ++
              (rstripNl (utf8DecodeReplace [255]) ++ ['\n']) ++ "```".toList ++ ['\n', '\n'])) :=
  ⟨by decide, spec_C8 [255] (by decide)⟩

/-! ### Extension filtering -/

theorem is_source_file_some (p : List Str) (b : List Nat) (exts : List Str) :
    is_source_file (p, FS.file b) (some exts) =
      exts.contains (pyLowerStr (pySuffix (pathName p))) := by
  simp [is_source_file, FS.is_file]

theorem is_source_file_targz (p : List Str) (b : List Nat) :
    is_source_file (p, FS.file b) (some [".tar.gz".toList]) = false := by
  rw [is_source_file_some]
  simp only [List.contains_cons, List.contains_nil, Bool.or_false]
  exact beq_eq_false_iff_ne.mpr (pyLower_pySuffix_ne_targz _)

/-- C9: extension filtering tests only the final suffix of the file's
name — a regular file matches a non-sentinel filter exactly when its
lowercased last suffix is a member of the set; a filter entry holding a
compound suffix such as `.tar.gz` can never match any file, because a
computed suffix contains no dot after its leading one; and the suffix of
`archive.tar.gz` is `.gz`. -/
theorem spec_C9 :
    (∀ (p : List Str) (b : List Nat) (exts : List Str),
        is_source_file (p, FS.file b) (some exts) =
          exts.contains (pyLowerStr (pySuffix (pathName p)))) ∧
      (∀ (p : List Str) (b : List Nat),
        is_source_file (p, FS.file b) (some [".tar.gz".toList]) = false) ∧
      pySuffix ("archive.tar.gz".toList) = ".gz".toList :=
  ⟨is_source_file_some, is_source_file_targz, by decide⟩

theorem is_source_file_none (e : Entry) : is_source_file e none = e.2.is_file := by
  rcases e with ⟨p, t⟩
  cases t <;> simp [is_source_file, FS.is_file]

/-! ### Enumeration -/

/-- C5: with the accept-all sentinel (`--all`), `collect_files` returns
exactly the regular files among the enumerated entries — every file
regardless of suffix (including files with no suffix), and never a
non-regular entry such as a directory — subject to the recursion flag. -/
theorem spec_C5 (t : FS) (rootStr : Str) (recursive : Bool) (e : Entry) :
    e ∈ collect_files t rootStr recursive none ↔
      e ∈ (if recursive then t.listAll else t.listTop) ∧ e.2.is_file = true := by
  rw [collect_files, collectFrom, sortFiles, mem_sortByKey, List.mem_filter,
    is_source_file_none]

/-- C6: with `recursive = false`, every entry returned by `collect_files`
is a direct child of the root — its relative path has exactly one
component. -/
theorem spec_C6 (t : FS) (rootStr : Str) (exts : Option (List Str)) (e : Entry)
    (h : e ∈ collect_files t rootStr false exts) : e.1.length = 1 := by
  rw [collect_files] at h
  simp only [Bool.false_eq_true, if_false] at h
  rw [collectFrom, sortFiles, mem_sortByKey, List.mem_filter] at h
  rcases h with ⟨hmem, _⟩
  cases t with
  | file b => simp [FS.listTop] at hmem
  | dir cs =>
    simp only [FS.listTop] at hmem
    rcases List.mem_map.mp hmem with ⟨c, _, rfl⟩
    rfl

/-- Witness for C6 at a one-file directory. -/
theorem spec_C6_witness :
    ((["a.py".toList], FS.file [120]) : Entry) ∈
        collect_files (FS.dir [("a.py".toList, FS.file [120])]) ("/r".toList) false none ∧
      (["a.py".toList] : List Str).length = 1 :=
  ⟨List.mem_singleton.mpr rfl,
   spec_C6 (FS.dir [("a.py".toList, FS.file [120])]) ("/r".toList) none
     (["a.py".toList], FS.file [120]) (List.mem_singleton.mpr rfl)⟩

/-! ### Extension normalization -/

/-- Counterexample to C7 as stated: for the command line `--ext .PY` the
resulting filter entry is `.PY` unchanged, which is not a lowercase
string — `main` prepends a missing dot but never lowercases. -/
theorem spec_C7_counterexample :
    normalizeExts [".PY".toList] = [".PY".toList] ∧
      pyLowerStr (".PY".toList) ≠ ".PY".toList := by
  constructor
  · decide
  · decide

/-- C7 amended: each entry of the normalized extension set begins with a
leading dot (a dot is prepended when missing), but the value's letter
case is preserved rather than lowercased — each entry is an input value
or an input value with `.` prepended. -/
theorem spec_C7_amended (l : List Str) (e : Str) (h : e ∈ normalizeExts l) :
    e.head? = some '.' ∧ (e ∈ l ∨ ∃ x ∈ l, e = '.' :: x) := by
  rcases List.mem_map.mp h with ⟨x, hx, rfl⟩
  by_cases hdot : x.head? = some '.'
  · dsimp only
    rw [if_pos hdot]
    exact ⟨hdot, Or.inl hx⟩
  · dsimp only
    rw [if_neg hdot]
    exact ⟨rfl, Or.inr ⟨x, hx, rfl⟩⟩

/-- Witness for the amended C7 at the input value `py` (no dot). -/
theorem spec_C7_witness :
    (".py".toList ∈ normalizeExts ["py".toList]) ∧
      ((".py".toList : Str).head? = some '.' ∧
        (".py".toList ∈ (["py".toList] : List Str) ∨
          ∃ x ∈ (["py".toList] : List Str), ".py".toList = '.' :: x)) :=
  ⟨by decide, spec_C7_amended ["py".toList] (".py".toList) (by decide)⟩

/-! ### Exit codes and error handling -/

theorem dirErrMsg_ne_noMatchMsg (rootStr : Str) : dirErrMsg rootStr ≠ noMatchMsg := by
  intro h
  have h1 : (dirErrMsg rootStr).head? = some 'E' := rfl
  rw [h] at h1
  exact absurd h1 (by decide)

/-- C3: the run exits with code 0 exactly when the root is a directory
and at least one file matches; it exits with code 1 exactly when the root
is missing or not a directory, or when zero files match — and those two
error conditions are reported with distinct messages (one total function,
no exception outcome). -/
theorem spec_C3 (root : Option FS) (rootStr : Str) (args : Args) :
    ((Concat.main root rootStr args).exit = 1 ↔
        rootDir? root = false ∨
          collect_files (theDir root) rootStr args.recursive (extsOf args) = []) ∧
      ((Concat.main root rootStr args).exit = 0 ↔
        rootDir? root = true ∧
          collect_files (theDir root) rootStr args.recursive (extsOf args) ≠ []) ∧
      (rootDir? root = false →
        (Concat.main root rootStr args).errMsg = some (dirErrMsg rootStr)) ∧
      (rootDir? root = true →
        collect_files (theDir root) rootStr args.recursive (extsOf args) = [] →
        (Concat.main root rootStr args).errMsg = some noMatchMsg) ∧
      dirErrMsg rootStr ≠ noMatchMsg := by
  refine ⟨?_, ?_, ?_, ?_, dirErrMsg_ne_noMatchMsg rootStr⟩ <;>
    by_cases hdir : rootDir? root = false
  · simp [Concat.main, hdir]
  · by_cases hemp : collect_files (theDir root) rootStr args.recursive (extsOf args) = [] <;>
      simp [Concat.main, hdir, hemp, List.isEmpty_iff]
  · simp [Concat.main, hdir]
  · have hdir' : rootDir? root = true := by
      revert hdir; cases rootDir? root <;> simp
    by_cases hemp : collect_files (theDir root) rootStr args.recursive (extsOf args) = [] <;>
      simp [Concat.main, hdir, hdir', hemp, List.isEmpty_iff]
  · simp [Concat.main, hdir]
  · intro hcontra
    rw [hcontra] at hdir
    simp at hdir
  · intro hcontra
    rw [hcontra] at hdir
    simp at hdir
  · intro _ hemp
    simp [Concat.main, hdir, hemp, List.isEmpty_iff]

/-- C4: on every error exit (exit code other than 0) the output file is
never opened — the run produces no output text. -/
theorem spec_C4 (root : Option FS) (rootStr : Str) (args : Args)
    (h : (Concat.main root rootStr args).exit ≠ 0) :
    (Concat.main root rootStr args).output = none := by
  by_cases hdir : rootDir? root = false
  · simp [Concat.main, hdir]
  · by_cases hemp : collect_files (theDir root) rootStr args.recursive (extsOf args) = []
    · simp [Concat.main, hdir, hemp, List.isEmpty_iff]
    · exact absurd (by simp [Concat.main, hdir, hemp, List.isEmpty_iff]) h

/-- Witness for C4 at a missing root path. -/
theorem spec_C4_witness :
    (Concat.main none ("/r".toList) ⟨false, false, []⟩).exit ≠ 0 ∧
      (Concat.main none ("/r".toList) ⟨false, false, []⟩).output = none :=
  ⟨by decide, spec_C4 none ("/r".toList) ⟨false, false, []⟩ (by decide)⟩

/-! ### Determinism of the sorted output -/

/-- The stable sort is insensitive to the input order provided the sort
keys are pairwise distinct. -/
theorem sortByKey_eq_of_perm {α : Type} (key : α → Str) {l1 l2 : List α}
    (hperm : l1.Perm l2) (hinj : l1.Pairwise fun a b => key a ≠ key b) :
    sortByKey key l1 = sortByKey key l2 := by
  have hS : ∀ {x y : α}, key x ≠ key y → key y ≠ key x := fun h => h.symm
  have hsperm : (sortByKey key l1).Perm (sortByKey key l2) :=
    ((sortByKey_perm key l1).trans hperm).trans (sortByKey_perm key l2).symm
  have hinj1 : (sortByKey key l1).Pairwise (fun a b => key a ≠ key b) :=
    (List.Perm.pairwise_iff hS (sortByKey_perm key l1)).mpr hinj
  have hinj2 : (sortByKey key l2).Pairwise (fun a b => key a ≠ key b) :=
    (List.Perm.pairwise_iff hS (sortByKey_perm key l2)).mpr
      ((List.Perm.pairwise_iff hS hperm).mp hinj)
  exact perm_pairwise_asymm_eq
    (fun a b h1 h2 => h1.2 (lexLe_antisymm h1.1 h2.1))
    hsperm ((sortByKey_pairwise key l1).and hinj1) ((sortByKey_pairwise key l2).and hinj2)

/-- Counterexample to C2 as stated: over a fixed tree containing the two
files `A.py` and `a.py` (same content), whose full path strings coincide
case-insensitively, two runs whose glob iterators yield the same entries
in different orders produce different output documents — the sort key
`str(p).lower()` ties, the stable sort preserves iteration order, and the
headings come out in different orders. -/
theorem spec_C2_counterexample :
    ([(["A.py".toList], FS.file [120]), (["a.py".toList], FS.file [120])] : List Entry).Perm
        [(["a.py".toList], FS.file [120]), (["A.py".toList], FS.file [120])] ∧
      runOutput ("/r".toList)
          [(["A.py".toList], FS.file [120]), (["a.py".toList], FS.file [120])] none ≠
        runOutput ("/r".toList)
          [(["a.py".toList], FS.file [120]), (["A.py".toList], FS.file [120])] none :=
  ⟨List.Perm.swap _ _ _, by decide⟩

/-- C2 amended: for a fixed configuration, two runs produce byte-identical
output documents provided the case-insensitive string forms of the
enumerated paths are pairwise distinct (no two entries differ only in
letter case) — under that proviso the sorted output is independent of the
enumeration order produced by the operating system. -/
theorem spec_C2_amended (rootStr : Str) (exts : Option (List Str)) (it1 it2 : List Entry)
    (hperm : it1.Perm it2)
    (hinj : it1.Pairwise
      (fun a b => pyLowerStr (strOfPath rootStr a.1) ≠ pyLowerStr (strOfPath rootStr b.1))) :
    runOutput rootStr it1 exts = runOutput rootStr it2 exts := by
  have h := sortByKey_eq_of_perm (fun e : Entry => pyLowerStr (strOfPath rootStr e.1))
    (hperm.filter (fun e => is_source_file e exts))
    (List.Pairwise.sublist (List.filter_sublist it1) hinj)
  simp only [runOutput, collectFrom, sortFiles]
  rw [h]

/-- Witness for the amended C2 at two case-distinct files enumerated in
both orders. -/
theorem spec_C2_witness :
    (([(["a.py".toList], FS.file [120]), (["b.py".toList], FS.file [121])] : List Entry).Perm
        [(["b.py".toList], FS.file [121]), (["a.py".toList], FS.file [120])] ∧
      ([(["a.py".toList], FS.file [120]), (["b.py".toList], FS.file [121])] : List Entry).Pairwise
        (fun a b =>
          pyLowerStr (strOfPath ("/r".toList) a.1) ≠ pyLowerStr (strOfPath ("/r".toList) b.1))) ∧
      runOutput ("/r".toList)
          [(["a.py".toList], FS.file [120]), (["b.py".toList], FS.file [121])] none =
        runOutput ("/r".toList)
          [(["b.py".toList], FS.file [121]), (["a.py".toList], FS.file [120])] none :=
  ⟨⟨List.Perm.swap _ _ _, by decide⟩,
   spec_C2_amended ("/r".toList) none _ _ (List.Perm.swap _ _ _) (by decide)⟩
